import Mathlib

/-!
Verification of a Rust experimental Bloom-filter repository: an unfolded
filter (src/main.rs, Bloom<M, K>), an XOR-folded filter
(src/folded.rs, Folded<F, S, K>), index-generation strategies
(biased modulo, rejection sampling, distinct sampling) and the
saturation procedure.  Machine integers are embedded as Nat with
explicit reduction modulo 2^64 where overflow matters; the byte buffer
[u8; M] is a List Nat of length M; iterators are embedded as explicit
state passing, with fuel (returning Option) where the Rust loop has no
structural bound.  The external xxh3_64_with_seed hash is embedded
concretely for inputs of 1..=8 bytes (the lengths the test vectors
use) and abstracted as a function parameter elsewhere, since every
property but the concrete test vector depends only on the hash being a
deterministic function of (element, seed).
-/

/-! ### Byte-buffer primitives (BitArray): Bloom::set_bit / test_bit / count_ones -/

/-- Embeds Bloom::set_bit (identical code in Folded::set_bit):
byte_index = index / 8, bit_index = index % 8,
bytes[byte_index] |= 1u8 << bit_index.  Out-of-range writes cannot
occur in the source (the index is always < 8 * length); List.set is a
no-op out of range. -/
def setBitBytes (bytes : List Nat) (index : Nat) : List Nat :=
  bytes.set (index / 8) (bytes.getD (index / 8) 0 ||| (1 <<< (index % 8)))

/-- Embeds Bloom::test_bit (identical code in Folded::test_bit):
(bytes[byte_index] & (1u8 << bit_index)) != 0. -/
def testBitBytes (bytes : List Nat) (index : Nat) : Bool :=
  (bytes.getD (index / 8) 0 &&& (1 <<< (index % 8))) != 0

/-- Population count of one byte (u8::count_ones: a u8 has bits 0..7). -/
def popCount8 (b : Nat) : Nat := (List.range 8).countP (fun i => b.testBit i)

/-- Embeds Bloom::count_ones: sum of u8::count_ones over the buffer. -/
def countOnesBytes (bytes : List Nat) : Nat := (bytes.map popCount8).sum

/-- Setting each index of a list in turn, as the for loops of
Bloom::add and Folded::insert do. -/
def addList (bytes : List Nat) (indices : List Nat) : List Nat :=
  indices.foldl setBitBytes bytes

/-! ### The external hash: XXH3-64 with seed, for inputs of 1..=8 bytes -/

/-- Reduction modulo 2^64 (u64 arithmetic). -/
def mask64 (n : Nat) : Nat := n % 2 ^ 64

/-- u64 wrapping multiplication. -/
def mul64 (a b : Nat) : Nat := mask64 (a * b)

/-- u64 wrapping subtraction (for a, b < 2^64). -/
def sub64 (a b : Nat) : Nat := (a + 2 ^ 64 - b % 2 ^ 64) % 2 ^ 64

/-- u64 rotate left (for x < 2^64, 0 < r < 64). -/
def rotl64 (x r : Nat) : Nat := mask64 (x <<< r) ||| (x >>> (64 - r))

/-- Byte swap of a u32 value. -/
def swap32 (x : Nat) : Nat :=
  ((x >>> 24) &&& 0xff) ||| (((x >>> 16) &&& 0xff) <<< 8) |||
    (((x >>> 8) &&& 0xff) <<< 16) ||| ((x &&& 0xff) <<< 24)

/-- Little-endian u32 read from a byte list. -/
def readLE32 (bytes : List Nat) (off : Nat) : Nat :=
  bytes.getD off 0 ||| (bytes.getD (off + 1) 0 <<< 8) |||
    (bytes.getD (off + 2) 0 <<< 16) ||| (bytes.getD (off + 3) 0 <<< 24)

/-- XXH64_avalanche, used by the 1-to-3-byte path of XXH3. -/
def avalanche64 (h0 : Nat) : Nat :=
  let h1 := h0 ^^^ (h0 >>> 33)
  let h2 := mul64 h1 0xC2B2AE3D27D4EB4F
  let h3 := h2 ^^^ (h2 >>> 29)
  let h4 := mul64 h3 0x165667B19E3779F9
  h4 ^^^ (h4 >>> 32)

/-- XXH3_rrmxmx, used by the 4-to-8-byte path of XXH3. -/
def rrmxmx (x len : Nat) : Nat :=
  let h1 := x ^^^ (rotl64 x 49 ^^^ rotl64 x 24)
  let h2 := mul64 h1 0x9FB21C651E98DF25
  let h3 := h2 ^^^ mask64 ((h2 >>> 35) + len)
  let h4 := mul64 h3 0x9FB21C651E98DF25
  h4 ^^^ (h4 >>> 28)

/-- XXH3_len_1to3_64b with the default secret: the constant is
readLE32(kSecret) ^ readLE32(kSecret+4). -/
def xxh3Len1to3 (input : List Nat) (seed : Nat) : Nat :=
  let len := input.length
  let c1 := input.getD 0 0
  let c2 := input.getD (len / 2) 0
  let c3 := input.getD (len - 1) 0
  let combined := (c1 <<< 16) ||| (c2 <<< 24) ||| c3 ||| (len <<< 8)
  let bitflip := mask64 (0x87275a9b + seed)
  avalanche64 (combined ^^^ bitflip)

/-- XXH3_len_4to8_64b with the default secret: the constant is
readLE64(kSecret+8) ^ readLE64(kSecret+16). -/
def xxh3Len4to8 (input : List Nat) (seed0 : Nat) : Nat :=
  let len := input.length
  let seed := seed0 ^^^ mask64 (swap32 (seed0 % 2 ^ 32) <<< 32)
  let input1 := readLE32 input 0
  let input2 := readLE32 input (len - 4)
  let bitflip := sub64 0xc73ab174c5ecd5a2 seed
  let input64 := mask64 (input2 + (input1 <<< 32))
  rrmxmx (input64 ^^^ bitflip) len

/-- xxh3::xxh3_64_with_seed restricted to inputs of 1..=8 bytes (the
only lengths the pinned test vectors use). -/
def xxh3WithSeed (input : List Nat) (seed : Nat) : Nat :=
  if input.length ≤ 3 then xxh3Len1to3 input seed else xxh3Len4to8 input seed

/-- The bytes of the string literal "one". -/
def elemOne : List Nat := [0x6f, 0x6e, 0x65]

/-- The bytes of the string literal "three". -/
def elemThree : List Nat := [0x74, 0x68, 0x72, 0x65, 0x65]

/-! ### Index generators (src/main.rs) -/

/-- Embeds BloomIndicesXXH3::next (the biased-modulo generator): the
draw at a given seed is hash(element, seed) % (M * 8); the iterator
starts at seed 0 and increments the seed each draw.  The hash stream
of the element is abstracted as h : Nat -> Nat (seed to draw). -/
def bloomIndicesModuloNext (h : Nat → Nat) (M seed : Nat) : Nat :=
  h seed % (M * 8)

/-- The first K outputs of BloomIndicesXXH3 (seeds 0, 1, ..., K-1). -/
def bloomIndicesModuloTake (h : Nat → Nat) (M K : Nat) : List Nat :=
  (List.range K).map (bloomIndicesModuloNext h M)

/-- Population count of a Nat (usize::count_ones), by binary digits;
the first argument is fuel, always called with fuel = n itself. -/
def countOnesAux : Nat → Nat → Nat
  | 0, _ => 0
  | fuel + 1, n => if n = 0 then 0 else countOnesAux fuel (n / 2) + n % 2

/-- usize::count_ones. -/
def countOnesNat (n : Nat) : Nat := countOnesAux n n

/-- Number of binary digits of n (fuelled; fuel = n suffices). -/
def bitLenAux : Nat → Nat → Nat
  | 0, _ => 0
  | fuel + 1, n => if n = 0 then 0 else bitLenAux fuel (n / 2) + 1

/-- Number of binary digits of n. -/
def bitLen (n : Nat) : Nat := bitLenAux n n

/-- usize::next_power_of_two: the smallest power of two that is
greater than or equal to n (and 1 for n = 0). -/
def nextPowerOfTwo (n : Nat) : Nat := 2 ^ bitLen (n - 1)

/-- Embeds the bitmask computation of
BloomIndicesXXH3RejectionSampling::from: with max = M * 8, the mask is
(if max.count_ones() == 1 then max else max.next_power_of_two()) - 1. -/
def rsBitmask (M : Nat) : Nat :=
  (if countOnesNat (M * 8) = 1 then M * 8 else nextPowerOfTwo (M * 8)) - 1

/-- Embeds BloomIndicesXXH3RejectionSampling::next: mask the draw at the
current seed; while the masked draw is >= M * 8, advance the seed and
redraw; finally advance the seed once more and yield.  The Rust while
loop has no bound, so the embedding takes fuel and returns none when
the fuel (number of permitted rejections) runs out.  On success it
returns the yielded index together with the iterator seed after the
call (accepted seed + 1). -/
def rsNext (h : Nat → Nat) (M : Nat) : Nat → Nat → Option (Nat × Nat)
  | 0, _ => none
  | fuel + 1, seed =>
    let index := h seed &&& rsBitmask M
    if index < M * 8 then some (index, seed + 1)
    else rsNext h M fuel (seed + 1)

/-- The first k outputs of BloomIndicesXXH3RejectionSampling, starting
from a given seed (each draw gets the same rejection fuel). -/
def rsTake (h : Nat → Nat) (M fuel : Nat) : Nat → Nat → Option (List Nat)
  | 0, _ => some []
  | k + 1, seed =>
    match rsNext h M fuel seed with
    | none => none
    | some (i, seed1) => (rsTake h M fuel k seed1).map (fun l => i :: l)

/-- The K indices Bloom::add and Bloom::has derive for one element:
BloomIndicesXXH3RejectionSampling::from(element).take(K), which starts
at seed 0. -/
def bloomIndices (h : Nat → Nat) (M K fuel : Nat) : Option (List Nat) :=
  rsTake h M fuel K 0

/-! ### Bloom<M, K> (src/main.rs) -/

/-- Embeds Bloom::add: set the bit at each of the K rejection-sampled
indices.  none means the rejection loop did not terminate within the
given fuel (the Rust code would still be spinning). -/
def bloomAdd (h : Nat → Nat) (M K fuel : Nat) (bytes : List Nat) :
    Option (List Nat) :=
  (bloomIndices h M K fuel).map (fun l => addList bytes l)

/-- Embeds Bloom::has: re-derive the same K indices and return true iff
every corresponding bit is set (the early-return loop of the source
computes exactly List.all). -/
def bloomHas (h : Nat → Nat) (M K fuel : Nat) (bytes : List Nat) :
    Option Bool :=
  (bloomIndices h M K fuel).map (fun l => l.all (testBitBytes bytes))

/-- Embeds Bloom::saturate: cands i is the hash stream of the i-th
32-byte candidate drawn from the blake3 XOF (keyed by the domain
separation label and the filter contents at entry); g is the rejection
fuel of the inner add; the outer loop takes its own fuel.  Each
iteration trial-applies the candidate to a clone and either stops
(returning the last committed state) when the clone exceeds 1019 set
bits, or commits the clone. -/
def bloomSaturate (cands : Nat → Nat → Nat) (M K g : Nat) :
    Nat → Nat → List Nat → Option (List Nat)
  | 0, _, _ => none
  | fuel + 1, i, bytes =>
    match bloomAdd (cands i) M K g bytes with
    | none => none
    | some cloned =>
      if countOnesBytes cloned > 1019 then some bytes
      else bloomSaturate cands M K g fuel (i + 1) cloned

/-! ### Generic iterator adapters (src/iterators.rs) -/

/-- Embeds DistinctSampling::next for position values: draw from the
underlying iterator (a list of remaining outputs) until a value not in
used_values appears, push it and yield it.  Returns the value, the
remaining underlying outputs and the new used_values. -/
def distinctNext : List Nat → List Nat → Option (Nat × List Nat × List Nat)
  | [], _ => none
  | v :: rest, used =>
    if v ∈ used then distinctNext rest used
    else some (v, rest, used ++ [v])

/-- The first n outputs of DistinctSampling (fewer if the underlying
iterator runs out). -/
def distinctTake : Nat → List Nat → List Nat → List Nat
  | 0, _, _ => []
  | n + 1, it, used =>
    match distinctNext it used with
    | none => []
    | some (v, it1, used1) => v :: distinctTake n it1 used1

/-- The state of YieldBits between calls: the remaining underlying
words, the cached last word, and bits_used. -/
structure YieldBitsState where
  rest : List Nat
  lastWord : Option Nat
  bitsUsed : Nat
  deriving DecidableEq, Repr

/-- Embeds YieldBits::next with usize = 64 bits: if bits_used + bits
would exceed 64, reset bits_used to 0 and fetch a fresh word
(discarding the unused high bits of the previous word); otherwise use
the cached word, fetching only if none is cached yet.  The result is
(last >> bits_used) & ((1 << bits) - 1), after which bits_used grows
by bits. -/
def yieldBitsNext (bits : Nat) (s : YieldBitsState) :
    Option (Nat × YieldBitsState) :=
  let fetched : Option (Nat × List Nat × Nat) :=
    if s.bitsUsed + bits > 64 then
      match s.rest with
      | [] => none
      | w :: r => some (w, r, 0)
    else
      match s.lastWord with
      | some l => some (l, s.rest, s.bitsUsed)
      | none =>
        match s.rest with
        | [] => none
        | w :: r => some (w, r, s.bitsUsed)
  match fetched with
  | none => none
  | some (lw, rest, bu) =>
    some ((lw >>> bu) &&& ((1 <<< bits) - 1), ⟨rest, some lw, bu + bits⟩)

/-! ### BloomIndicesDistinctXXH3 (src/main.rs) -/

/-- Outcome of one BloomIndicesDistinctXXH3::next call: an in-bounds
yield, a Rust index-out-of-bounds panic, or fuel exhaustion of the
unbounded retry loop. -/
inductive DistinctIterStep where
  | yields (index : Nat) (usedNums : List Bool) (seed : Nat)
  | outOfBounds
  | noFuel
  deriving DecidableEq, Repr

/-- Embeds BloomIndicesDistinctXXH3::next: the underlying
BloomIndicesXXH3 draws index = h seed % (M * 8) and increments the
seed; the loop reads used_nums[index] (used_nums is [bool; M], so the
read panics when index >= used_nums.length), marks it used, yields the
index if it was fresh, and otherwise redraws. -/
def bloomIndicesDistinctNext (h : Nat → Nat) (M : Nat) :
    Nat → List Bool → Nat → DistinctIterStep
  | 0, _, _ => .noFuel
  | fuel + 1, usedNums, seed =>
    let index := h seed % (M * 8)
    if hix : index < usedNums.length then
      let wasUsed := usedNums.get ⟨index, hix⟩
      let usedNums1 := usedNums.set index true
      if wasUsed then bloomIndicesDistinctNext h M fuel usedNums1 (seed + 1)
      else .yields index usedNums1 (seed + 1)
    else .outOfBounds

/-! ### Folded<F, S, K> (src/folded.rs) -/

/-- Embeds SparseArray::set_bit: push the index unless already present
(set / idempotent-OR semantics). -/
def sparseSetBit (l : List Nat) (index : Nat) : List Nat :=
  if index ∈ l then l else l ++ [index]

/-- Embeds SparseArray::flip_bit: remove the first occurrence if
present, otherwise push (flip / XOR semantics). -/
def sparseFlipBit (l : List Nat) (index : Nat) : List Nat :=
  if index ∈ l then l.erase index else l ++ [index]

/-- Embeds SparseArray::folded: flip index >> times into a fresh
array, for each stored index in order. -/
def sparseFolded (l : List Nat) (times : Nat) : List Nat :=
  l.foldl (fun acc index => sparseFlipBit acc (index >>> times)) []

/-- Embeds Folded::build_expected: for seeds 0..K, set bit
xxh3(element, seed) % (S * 8 << F) with set semantics.  The element
hash stream is abstracted as h.  (For S > 0 the modulus is positive;
the Rust code would panic on a zero modulus.) -/
def buildExpected (h : Nat → Nat) (S F K : Nat) : List Nat :=
  (List.range K).foldl
    (fun acc seed => sparseSetBit acc (h seed % ((S * 8) <<< F))) []

/-- The physical indices Folded::insert and Folded::has both iterate
over: build_expected(hash).folded(F).indices_set. -/
def foldedIndicesOf (h : Nat → Nat) (S F K : Nat) : List Nat :=
  sparseFolded (buildExpected h S F K) F

/-- Embeds Folded::insert: set every bit of the folded index set. -/
def foldedInsert (h : Nat → Nat) (S F K : Nat) (bytes : List Nat) :
    List Nat :=
  addList bytes (foldedIndicesOf h S F K)

/-- Embeds Folded::has: true iff every bit of the folded index set is
set (the early-return loop computes List.all). -/
def foldedHas (h : Nat → Nat) (S F K : Nat) (bytes : List Nat) : Bool :=
  (foldedIndicesOf h S F K).all (testBitBytes bytes)

/-! ### Hex encoding (hex::encode, used by the test fixture) -/

/-- Lowercase hex digit. -/
def hexDigit (n : Nat) : Char := if n < 10 then Char.ofNat (48 + n) else Char.ofNat (87 + n)

/-- hex::encode of a byte buffer: two lowercase digits per byte, high
nibble first. -/
def hexEncode (bytes : List Nat) : String :=
  String.mk (bytes.foldr (fun b acc => hexDigit (b / 16) :: hexDigit (b % 16) :: acc) [])

/-- The buffer of the test_vectors test: a fresh Bloom<125, 4>, add
"one", then add "three", with the rejection-sampling generator the
source's Bloom::add uses (fuel 64 is ample; on fuel exhaustion the
default [] would make the fixture comparison fail). -/
def testVectorsBuffer : List Nat :=
  (((bloomAdd (xxh3WithSeed elemOne) 125 4 64 (List.replicate 125 0)).bind
    (bloomAdd (xxh3WithSeed elemThree) 125 4 64)).getD [])

/-- The buffer the same test would produce with the biased-modulo
generator BloomIndicesXXH3 (position = draw % 1000) instead. -/
def testVectorsBufferModulo : List Nat :=
  addList
    (addList (List.replicate 125 0)
      (bloomIndicesModuloTake (xxh3WithSeed elemOne) 125 4))
    (bloomIndicesModuloTake (xxh3WithSeed elemThree) 125 4)

/-- The 250-character hex fixture literal of the test_vectors test. -/
def testVectorsFixture : String :=
  "0000000000000000000000000000000000000000000000000000000000000000000000000000100000000000004000000000000001000000000000000000000000000400004000000000000000800000000000000000000000000000000000000000000000000000000000000000000020000000000000000000000400"

/-! ### Bit-level facts about the byte buffer -/

/-- Testing a masked bit is Nat.testBit. -/
lemma and_one_shift_ne (x k : Nat) : ((x &&& (1 <<< k)) != 0) = x.testBit k := by
  rw [Nat.one_shiftLeft, Nat.and_two_pow]
  cases h : x.testBit k <;> simp [h, Nat.pos_iff_ne_zero, Nat.pow_eq_zero]

/-- testBitBytes reads one bit of one byte. -/
lemma testBitBytes_eq (b : List Nat) (i : Nat) :
    testBitBytes b i = (b.getD (i / 8) 0).testBit (i % 8) := by
  unfold testBitBytes
  exact and_one_shift_ne _ _

/-- One byte is bitwise below another. -/
def byteLeB (x y : Nat) : Prop := ∀ k, x.testBit k = true → y.testBit k = true

/-- A buffer is pointwise bitwise below another of the same length. -/
def bytesLe (b c : List Nat) : Prop := List.Forall₂ byteLeB b c

lemma byteLeB_refl (x : Nat) : byteLeB x x := fun _ h => h

lemma byteLeB_or (x m : Nat) : byteLeB x (x ||| m) := by
  intro k h
  simp [Nat.testBit_or, h]

lemma bytesLe_refl (b : List Nat) : bytesLe b b :=
  List.forall₂_same.mpr (fun x _ => byteLeB_refl x)

lemma bytesLe_trans {a b c : List Nat} (h₁ : bytesLe a b) (h₂ : bytesLe b c) :
    bytesLe a c := by
  induction h₁ generalizing c with
  | nil => cases h₂; exact List.Forall₂.nil
  | cons hxy _ ih =>
    cases h₂ with
    | cons hyz htl => exact List.Forall₂.cons (fun k hk => hyz k (hxy k hk)) (ih htl)

lemma bytesLe_length {b c : List Nat} (h : bytesLe b c) : b.length = c.length :=
  List.Forall₂.length_eq h

lemma bytesLe_getD {b c : List Nat} (h : bytesLe b c) (j : Nat) :
    byteLeB (b.getD j 0) (c.getD j 0) := by
  induction h generalizing j with
  | nil => simp [List.getD_nil]; exact byteLeB_refl 0
  | cons hxy _ ih =>
    cases j with
    | zero => simpa [List.getD_cons_zero] using hxy
    | succ j => simpa [List.getD_cons_succ] using ih j

lemma bytesLe_set_or (b : List Nat) (j m : Nat) :
    bytesLe b (b.set j (b.getD j 0 ||| m)) := by
  induction b generalizing j with
  | nil => exact List.Forall₂.nil
  | cons x t ih =>
    cases j with
    | zero =>
      exact List.Forall₂.cons (byteLeB_or x m) (bytesLe_refl t)
    | succ j =>
      exact List.Forall₂.cons (byteLeB_refl x) (by simpa [List.getD_cons_succ] using ih j)

lemma bytesLe_setBit (b : List Nat) (i : Nat) : bytesLe b (setBitBytes b i) :=
  bytesLe_set_or b (i / 8) (1 <<< (i % 8))

lemma testBit_mono {b c : List Nat} (h : bytesLe b c) (i : Nat)
    (ht : testBitBytes b i = true) : testBitBytes c i = true := by
  rw [testBitBytes_eq] at ht ⊢
  exact bytesLe_getD h (i / 8) (i % 8) ht

lemma length_setBit (b : List Nat) (i : Nat) :
    (setBitBytes b i).length = b.length := by
  simp [setBitBytes]

lemma bytesLe_addList (b : List Nat) (L : List Nat) : bytesLe b (addList b L) := by
  induction L generalizing b with
  | nil => exact bytesLe_refl b
  | cons i t ih => exact bytesLe_trans (bytesLe_setBit b i) (ih (setBitBytes b i))

lemma length_addList (b : List Nat) (L : List Nat) :
    (addList b L).length = b.length := by
  induction L generalizing b with
  | nil => rfl
  | cons i t ih =>
    show (addList (setBitBytes b i) t).length = b.length
    rw [ih, length_setBit]

lemma testBit_setBit_self {b : List Nat} {i : Nat} (h : i / 8 < b.length) :
    testBitBytes (setBitBytes b i) i = true := by
  rw [testBitBytes_eq]
  have hset : (setBitBytes b i).getD (i / 8) 0
      = b.getD (i / 8) 0 ||| (1 <<< (i % 8)) := by
    unfold setBitBytes
    rw [List.getD_eq_getElem?_getD, List.getElem?_set_self h]
    rfl
  rw [hset]
  simp [Nat.testBit_or, Nat.one_shiftLeft, Nat.testBit_two_pow_self]

lemma testBit_setBit_ne {i j : Nat} (b : List Nat) (hne : i ≠ j) :
    testBitBytes (setBitBytes b i) j = testBitBytes b j := by
  rw [testBitBytes_eq, testBitBytes_eq]
  rcases Nat.decEq (i / 8) (j / 8) with hdiv | hdiv
  · -- different byte: the written cell is not the one read
    have h1 : (setBitBytes b i).getD (j / 8) 0 = b.getD (j / 8) 0 := by
      unfold setBitBytes
      rw [List.getD_eq_getElem?_getD, List.getElem?_set_ne hdiv,
        List.getD_eq_getElem?_getD]
    rw [h1]
  · -- same byte, different bit position
    have hbit : i % 8 ≠ j % 8 := by omega
    rcases Nat.lt_or_ge (j / 8) b.length with hlt | hge
    · have h1 : (setBitBytes b i).getD (j / 8) 0
          = b.getD (i / 8) 0 ||| (1 <<< (i % 8)) := by
        unfold setBitBytes
        rw [List.getD_eq_getElem?_getD, hdiv, List.getElem?_set_self (hdiv ▸ hlt)]
        rfl
      rw [h1, hdiv]
      simp [Nat.testBit_or, Nat.one_shiftLeft, Nat.testBit_two_pow_of_ne hbit]
    · have h1 : (setBitBytes b i).getD (j / 8) 0 = b.getD (j / 8) 0 := by
        unfold setBitBytes
        rw [List.getD_eq_getElem?_getD, List.getElem?_set, if_pos hdiv,
          if_neg (by omega : ¬ i / 8 < b.length)]
        rw [List.getD_eq_getElem?_getD, List.getElem?_eq_none
          (by omega : b.length ≤ j / 8)]
      rw [h1]

lemma testBit_addList {b : List Nat} {L : List Nat}
    (hrange : ∀ i ∈ L, i / 8 < b.length) :
    ∀ i ∈ L, testBitBytes (addList b L) i = true := by
  induction L generalizing b with
  | nil => intro i hi; cases hi
  | cons x t ih =>
    intro i hi
    have hstep : addList b (x :: t) = addList (setBitBytes b x) t := rfl
    rcases List.mem_cons.mp hi with hi | hi
    subst hi
    · rw [hstep]
      exact testBit_mono (bytesLe_addList _ t) i
        (testBit_setBit_self (hrange i (List.mem_cons_self i t)))
    · rw [hstep]
      exact ih (fun j hj => (length_setBit b x) ▸ hrange j (List.mem_cons_of_mem x hj)) i hi

lemma testBit_addList_not_mem {L : List Nat} {j : Nat} (b : List Nat) (hj : j ∉ L) :
    testBitBytes (addList b L) j = testBitBytes b j := by
  induction L generalizing b with
  | nil => rfl
  | cons x t ih =>
    have hxj : x ≠ j := fun h => hj (h ▸ List.mem_cons_self x t)
    have hjt : j ∉ t := fun h => hj (List.mem_cons_of_mem x h)
    show testBitBytes (addList (setBitBytes b x) t) j = _
    rw [ih (setBitBytes b x) hjt, testBit_setBit_ne b hxj]

lemma popCount8_mono {x y : Nat} (h : byteLeB x y) : popCount8 x ≤ popCount8 y :=
  List.countP_mono_left (fun k _ hk => h k hk)

lemma countOnes_mono {b c : List Nat} (h : bytesLe b c) :
    countOnesBytes b ≤ countOnesBytes c := by
  induction h with
  | nil => exact Nat.le_refl 0
  | cons hxy _ ih =>
    show popCount8 _ + _ ≤ popCount8 _ + _
    exact Nat.add_le_add (popCount8_mono hxy) ih

/-! ### Rejection sampling: bounds and first-acceptance -/

lemma rsNext_spec (h : Nat → Nat) (M : Nat) :
    ∀ fuel seed i seed1, rsNext h M fuel seed = some (i, seed1) →
      i < M * 8 ∧ seed < seed1 ∧ i = h (seed1 - 1) &&& rsBitmask M ∧
        ∀ t, seed ≤ t → t < seed1 - 1 → M * 8 ≤ h t &&& rsBitmask M := by
  intro fuel
  induction fuel with
  | zero => intro seed i seed1 hx; cases hx
  | succ fuel ih =>
    intro seed i seed1 hx
    simp only [rsNext] at hx
    split at hx
    case isTrue hacc =>
      simp only [Option.some.injEq, Prod.mk.injEq] at hx
      obtain ⟨rfl, rfl⟩ := hx
      refine ⟨hacc, Nat.lt_succ_self seed, by simp, ?_⟩
      intro t ht1 ht2
      omega
    case isFalse hrej =>
      obtain ⟨h1, h2, h3, h4⟩ := ih (seed + 1) i seed1 hx
      refine ⟨h1, by omega, h3, ?_⟩
      intro t ht1 ht2
      rcases Nat.eq_or_lt_of_le ht1 with rfl | hlt
      · exact Nat.le_of_not_lt hrej
      · exact h4 t (by omega) ht2

lemma rsTake_lt (h : Nat → Nat) (M fuel : Nat) :
    ∀ k seed L, rsTake h M fuel k seed = some L → ∀ i ∈ L, i < M * 8 := by
  intro k
  induction k with
  | zero =>
    intro seed L hL i hi
    simp only [rsTake, Option.some.injEq] at hL
    subst hL
    cases hi
  | succ k ih =>
    intro seed L hL i hi
    cases hnext : rsNext h M fuel seed with
    | none => simp only [rsTake, hnext] at hL; exact Option.noConfusion hL
    | some r =>
      obtain ⟨j, seed1⟩ := r
      cases htake : rsTake h M fuel k seed1 with
      | none =>
        simp only [rsTake, hnext, htake] at hL
        exact Option.noConfusion (Option.map_none' (fun l => j :: l) ▸ hL)
      | some t =>
        simp only [rsTake, hnext, htake] at hL
        rw [Option.map_some'] at hL
        obtain rfl : j :: t = L := Option.some.inj hL
        rcases List.mem_cons.mp hi with rfl | hit
        · exact (rsNext_spec h M fuel seed i seed1 hnext).1
        · exact ih seed1 t htake i hit

lemma bloomIndices_lt {h : Nat → Nat} {M K fuel : Nat} {L : List Nat}
    (hL : bloomIndices h M K fuel = some L) : ∀ i ∈ L, i < M * 8 :=
  rsTake_lt h M fuel K 0 L hL

/-! ### bit length, next_power_of_two and count_ones -/

lemma bitLenAux_le_iff :
    ∀ fuel n, n ≤ fuel → ∀ k, (bitLenAux fuel n ≤ k ↔ n < 2 ^ k) := by
  intro fuel
  induction fuel with
  | zero =>
    intro n hn k
    have h0 : n = 0 := by omega
    subst h0
    simp only [bitLenAux]
    have : 0 < 2 ^ k := Nat.pos_pow_of_pos k (by norm_num)
    omega
  | succ fuel ih =>
    intro n hn k
    by_cases h0 : n = 0
    · subst h0
      have hb : bitLenAux (fuel + 1) 0 = 0 := by simp [bitLenAux]
      rw [hb]
      have : 0 < 2 ^ k := Nat.pos_pow_of_pos k (by norm_num)
      omega
    · simp only [bitLenAux, if_neg h0]
      cases k with
      | zero =>
        simp only [pow_zero]
        omega
      | succ k =>
        have ihh := ih (n / 2) (by omega) k
        have hpow : (2 : Nat) ^ (k + 1) = 2 * 2 ^ k := by ring
        rw [hpow]
        constructor
        · intro hle
          have := ihh.mp (by omega)
          omega
        · intro hlt
          have := ihh.mpr (by omega)
          omega

lemma le_nextPowerOfTwo (n : Nat) : n ≤ nextPowerOfTwo n := by
  unfold nextPowerOfTwo bitLen
  have := (bitLenAux_le_iff (n - 1) (n - 1) le_rfl (bitLenAux (n - 1) (n - 1))).mp le_rfl
  omega

lemma nextPowerOfTwo_le_pow {n k : Nat} (hk : n ≤ 2 ^ k) : nextPowerOfTwo n ≤ 2 ^ k := by
  unfold nextPowerOfTwo bitLen
  have hp : 0 < 2 ^ k := Nat.pos_pow_of_pos k (by norm_num)
  have h1 : bitLenAux (n - 1) (n - 1) ≤ k :=
    (bitLenAux_le_iff (n - 1) (n - 1) le_rfl k).mpr (by omega)
  exact Nat.pow_le_pow_right (by norm_num) h1

lemma countOnesAux_pos : ∀ fuel n, 0 < n → n ≤ fuel → 0 < countOnesAux fuel n := by
  intro fuel
  induction fuel with
  | zero => intro n h1 h2; omega
  | succ fuel ih =>
    intro n h1 h2
    simp only [countOnesAux, if_neg (by omega : ¬ n = 0)]
    by_cases hodd : n % 2 = 1
    · omega
    · have hn2 : 0 < n / 2 := by omega
      have := ih (n / 2) hn2 (by omega)
      omega

lemma countOnesAux_eq_one :
    ∀ fuel n, n ≤ fuel → countOnesAux fuel n = 1 → ∃ k, n = 2 ^ k := by
  intro fuel
  induction fuel with
  | zero =>
    intro n h1 h2
    simp only [countOnesAux] at h2
    omega
  | succ fuel ih =>
    intro n hn h1
    by_cases h0 : n = 0
    · subst h0; simp [countOnesAux] at h1
    · simp only [countOnesAux, if_neg h0] at h1
      by_cases hodd : n % 2 = 1
      · have hz : countOnesAux fuel (n / 2) = 0 := by omega
        have hhalf : n / 2 = 0 := by
          by_contra hne
          have := countOnesAux_pos fuel (n / 2) (by omega) (by omega)
          omega
        exact ⟨0, by omega⟩
      · have h2 : countOnesAux fuel (n / 2) = 1 := by omega
        obtain ⟨k, hk⟩ := ih (n / 2) (by omega) h2
        refine ⟨k + 1, ?_⟩
        have hsq : (2 : Nat) ^ (k + 1) = 2 * 2 ^ k := by ring
        omega

lemma rsBitmask_eq (M : Nat) : rsBitmask M = nextPowerOfTwo (M * 8) - 1 := by
  unfold rsBitmask
  split
  case isTrue hco =>
    obtain ⟨k, hk⟩ := countOnesAux_eq_one (M * 8) (M * 8) le_rfl hco
    have h1 : nextPowerOfTwo (M * 8) ≤ M * 8 := by
      calc nextPowerOfTwo (M * 8) ≤ 2 ^ k := nextPowerOfTwo_le_pow (le_of_eq hk)
      _ = M * 8 := hk.symm
    have h2 := le_nextPowerOfTwo (M * 8)
    omega
  case isFalse => rfl

lemma one_le_nextPowerOfTwo (n : Nat) : 1 ≤ nextPowerOfTwo n :=
  Nat.pos_pow_of_pos _ (by norm_num)

/-! ### SparseArray: set semantics, flip semantics, folding -/

lemma nodup_sparseSetBit {l : List Nat} (h : l.Nodup) (i : Nat) :
    (sparseSetBit l i).Nodup := by
  unfold sparseSetBit
  split
  case isTrue => exact h
  case isFalse hni =>
    refine List.Nodup.append h (List.nodup_singleton i) ?_
    intro a ha hb
    rw [List.mem_singleton] at hb
    subst hb
    exact hni ha

lemma mem_sparseSetBit {l : List Nat} {i x : Nat} :
    x ∈ sparseSetBit l i ↔ x ∈ l ∨ x = i := by
  unfold sparseSetBit
  split
  case isTrue hmem =>
    constructor
    · exact Or.inl
    · rintro (hx | rfl)
      · exact hx
      · exact hmem
  case isFalse hni =>
    rw [List.mem_append, List.mem_singleton]

lemma nodup_sparseFlipBit {l : List Nat} (h : l.Nodup) (i : Nat) :
    (sparseFlipBit l i).Nodup := by
  unfold sparseFlipBit
  split
  case isTrue => exact List.Nodup.erase i h
  case isFalse hni =>
    refine List.Nodup.append h (List.nodup_singleton i) ?_
    intro a ha hb
    rw [List.mem_singleton] at hb
    subst hb
    exact hni ha

lemma mem_sparseFlipBit {l : List Nat} (h : l.Nodup) (i x : Nat) :
    x ∈ sparseFlipBit l i ↔ (if i = x then x ∉ l else x ∈ l) := by
  unfold sparseFlipBit
  split
  case isTrue hmem =>
    rw [List.Nodup.mem_erase_iff h]
    split
    case isTrue heq =>
      subst heq
      simp [hmem]
    case isFalse hne =>
      have hxi : x ≠ i := fun hh => hne hh.symm
      simp [hxi]
  case isFalse hni =>
    rw [List.mem_append, List.mem_singleton]
    split
    case isTrue heq =>
      subst heq
      simp [hni]
    case isFalse hne =>
      have hxi : x ≠ i := fun hh => hne hh.symm
      simp [hxi]

lemma mem_sparseFlipBit_sub {l : List Nat} {i x : Nat}
    (hx : x ∈ sparseFlipBit l i) : x ∈ l ∨ x = i := by
  unfold sparseFlipBit at hx
  split at hx
  · exact Or.inl (List.erase_subset i l hx)
  · rw [List.mem_append, List.mem_singleton] at hx
    exact hx

lemma nodup_foldl_sparseSetBit (f : Nat → Nat) :
    ∀ (seeds acc : List Nat), acc.Nodup →
      (seeds.foldl (fun a s => sparseSetBit a (f s)) acc).Nodup := by
  intro seeds
  induction seeds with
  | nil => intro acc h; exact h
  | cons s t ih => intro acc h; exact ih _ (nodup_sparseSetBit h (f s))

lemma mem_foldl_sparseSetBit (f : Nat → Nat) :
    ∀ (seeds acc : List Nat) (x : Nat),
      x ∈ seeds.foldl (fun a s => sparseSetBit a (f s)) acc →
      x ∈ acc ∨ ∃ s ∈ seeds, x = f s := by
  intro seeds
  induction seeds with
  | nil => intro acc x hx; exact Or.inl hx
  | cons s t ih =>
    intro acc x hx
    rcases ih (sparseSetBit acc (f s)) x hx with hx0 | ⟨s1, hs1, rfl⟩
    · rcases mem_sparseSetBit.mp hx0 with hx1 | rfl
      · exact Or.inl hx1
      · exact Or.inr ⟨s, List.mem_cons_self s t, rfl⟩
    · exact Or.inr ⟨s1, List.mem_cons_of_mem s hs1, rfl⟩

lemma nodup_buildExpected (h : Nat → Nat) (S F K : Nat) :
    (buildExpected h S F K).Nodup :=
  nodup_foldl_sparseSetBit _ (List.range K) [] List.nodup_nil

lemma buildExpected_lt {h : Nat → Nat} {S F K : Nat} (hS : 0 < S) :
    ∀ x ∈ buildExpected h S F K, x < (S * 8) <<< F := by
  intro x hx
  rcases mem_foldl_sparseSetBit _ (List.range K) [] x hx with hx0 | ⟨s, _, rfl⟩
  · cases hx0
  · apply Nat.mod_lt
    rw [Nat.shiftLeft_eq]
    have h2 : 0 < 2 ^ F := Nat.pos_pow_of_pos F (by norm_num)
    exact Nat.mul_pos (by omega) h2

lemma mem_foldl_flip (F : Nat) :
    ∀ (l acc : List Nat), acc.Nodup →
      (l.foldl (fun a i => sparseFlipBit a (i >>> F)) acc).Nodup ∧
      ∀ q, (q ∈ l.foldl (fun a i => sparseFlipBit a (i >>> F)) acc ↔
        (if l.countP (fun i => i >>> F == q) % 2 = 1 then q ∉ acc else q ∈ acc)) := by
  intro l
  induction l with
  | nil =>
    intro acc h
    refine ⟨h, fun q => ?_⟩
    simp
  | cons i t ih =>
    intro acc h
    have hstep := ih (sparseFlipBit acc (i >>> F)) (nodup_sparseFlipBit h (i >>> F))
    refine ⟨hstep.1, fun q => ?_⟩
    have hfold : (i :: t).foldl (fun a j => sparseFlipBit a (j >>> F)) acc
        = t.foldl (fun a j => sparseFlipBit a (j >>> F)) (sparseFlipBit acc (i >>> F)) := rfl
    rw [hfold, (hstep.2 q), mem_sparseFlipBit h (i >>> F) q]
    by_cases hpi : i >>> F = q
    · rw [List.countP_cons_of_pos _ _ (by simp [hpi]), if_pos hpi]
      by_cases hc : List.countP (fun j => j >>> F == q) t % 2 = 1
      · rw [if_pos hc, if_neg (by omega)]
        tauto
      · rw [if_neg hc, if_pos (by omega)]
    · rw [List.countP_cons_of_neg _ _ (by simp [hpi]), if_neg hpi]

lemma mem_sparseFolded_iff (l : List Nat) (F q : Nat) :
    q ∈ sparseFolded l F ↔ l.countP (fun i => i >>> F == q) % 2 = 1 := by
  have hm := (mem_foldl_flip F l [] List.nodup_nil).2 q
  unfold sparseFolded
  rw [hm]
  split
  case isTrue hc => simp [hc]
  case isFalse hc => simp [hc]

lemma foldl_flip_zero_append :
    ∀ (l acc : List Nat), (acc ++ l).Nodup →
      l.foldl (fun a i => sparseFlipBit a (i >>> 0)) acc = acc ++ l := by
  intro l
  induction l with
  | nil => intro acc h; simp
  | cons i t ih =>
    intro acc h
    have hni : i ∉ acc := by
      rcases List.nodup_append.mp h with ⟨h1, h2, hdisj⟩
      intro hia
      exact hdisj hia (List.mem_cons_self i t)
    have hflip : sparseFlipBit acc (i >>> 0) = acc ++ [i] := by
      unfold sparseFlipBit
      rw [Nat.shiftRight_zero, if_neg hni]
    have hstep : (i :: t).foldl (fun a j => sparseFlipBit a (j >>> 0)) acc
        = t.foldl (fun a j => sparseFlipBit a (j >>> 0)) (sparseFlipBit acc (i >>> 0)) := rfl
    rw [hstep, hflip,
      ih (acc ++ [i]) (by rwa [List.append_assoc, List.singleton_append]),
      List.append_assoc, List.singleton_append]

lemma sparseFolded_zero {l : List Nat} (h : l.Nodup) : sparseFolded l 0 = l := by
  unfold sparseFolded
  simpa using foldl_flip_zero_append l [] (by simpa using h)

lemma mem_foldl_flip_sub (F : Nat) :
    ∀ (l acc : List Nat) (q : Nat),
      q ∈ l.foldl (fun a i => sparseFlipBit a (i >>> F)) acc →
      q ∈ acc ∨ ∃ x ∈ l, q = x >>> F := by
  intro l
  induction l with
  | nil => intro acc q hq; exact Or.inl hq
  | cons i t ih =>
    intro acc q hq
    rcases ih (sparseFlipBit acc (i >>> F)) q hq with h0 | ⟨x, hx, rfl⟩
    · rcases mem_sparseFlipBit_sub h0 with h1 | rfl
      · exact Or.inl h1
      · exact Or.inr ⟨i, List.mem_cons_self i t, rfl⟩
    · exact Or.inr ⟨x, List.mem_cons_of_mem i hx, rfl⟩

lemma foldedIndicesOf_lt {h : Nat → Nat} {S F K : Nat} (hS : 0 < S) :
    ∀ i ∈ foldedIndicesOf h S F K, i < S * 8 := by
  intro i hi
  rcases mem_foldl_flip_sub F (buildExpected h S F K) [] i hi with h0 | ⟨x, hx, rfl⟩
  · cases h0
  · have hxlt := buildExpected_lt hS x hx
    rw [Nat.shiftLeft_eq] at hxlt
    rw [Nat.shiftRight_eq_div_pow]
    have h2 : 0 < 2 ^ F := Nat.pos_pow_of_pos F (by norm_num)
    exact (Nat.div_lt_iff_lt_mul h2).mpr hxlt

lemma folded_insert_then_has (h : Nat → Nat) (S F K : Nat) (hS : 0 < S)
    (b : List Nat) (hlen : b.length = S) :
    foldedHas h S F K (foldedInsert h S F K b) = true := by
  unfold foldedHas foldedInsert
  refine List.all_eq_true.mpr ?_
  intro x hx
  refine testBit_addList ?_ x hx
  intro j hj
  have hjlt := foldedIndicesOf_lt hS j hj
  rw [hlen]
  omega

lemma countP_eq_two {L : List Nat} {p : Nat → Bool} {p1 p2 : Nat}
    (hnd : L.Nodup) (h1 : p1 ∈ L) (h2 : p2 ∈ L) (hne : p1 ≠ p2)
    (hp1 : p p1 = true) (hp2 : p p2 = true)
    (honly : ∀ x ∈ L, p x = true → x = p1 ∨ x = p2) :
    L.countP p = 2 := by
  rw [List.countP_eq_length_filter]
  have hndf : (L.filter p).Nodup := List.Nodup.filter p hnd
  have hfin : (L.filter p).toFinset = {p1, p2} := by
    ext a
    simp only [List.mem_toFinset, List.mem_filter, Finset.mem_insert, Finset.mem_singleton]
    constructor
    · rintro ⟨ha, hpa⟩
      exact honly a ha hpa
    · rintro (rfl | rfl)
      · exact ⟨h1, hp1⟩
      · exact ⟨h2, hp2⟩
  have hlen := List.toFinset_card_of_nodup hndf
  rw [hfin] at hlen
  rw [← hlen, Finset.card_insert_of_not_mem (by simp [hne]), Finset.card_singleton]

lemma testBit_replicate_zero (S q : Nat) :
    testBitBytes (List.replicate S 0) q = false := by
  rw [testBitBytes_eq]
  have hz : (List.replicate S 0).getD (q / 8) 0 = 0 := by
    rw [List.getD_eq_getElem?_getD]
    rcases Nat.lt_or_ge (q / 8) S with hlt | hge
    · rw [List.getElem?_replicate, if_pos hlt]
      rfl
    · rw [List.getElem?_eq_none (by simpa using hge)]
      rfl
  rw [hz, Nat.zero_testBit]

/-! ### Distinct sampling -/

lemma distinctNext_spec :
    ∀ (it used : List Nat) (v : Nat) (it1 used1 : List Nat),
      distinctNext it used = some (v, it1, used1) →
      v ∉ used ∧ used1 = used ++ [v] := by
  intro it
  induction it with
  | nil => intro used v it1 used1 hx; cases hx
  | cons w t ih =>
    intro used v it1 used1 hx
    simp only [distinctNext] at hx
    split at hx
    · exact ih used v it1 used1 hx
    case isFalse hni =>
      simp only [Option.some.injEq, Prod.mk.injEq] at hx
      obtain ⟨rfl, rfl, rfl⟩ := hx
      exact ⟨hni, rfl⟩

lemma distinctTake_nodup :
    ∀ (n : Nat) (it used : List Nat),
      (distinctTake n it used).Nodup ∧ ∀ v ∈ distinctTake n it used, v ∉ used := by
  intro n
  induction n with
  | zero =>
    intro it used
    exact ⟨List.nodup_nil, by simp [distinctTake]⟩
  | succ n ih =>
    intro it used
    cases hnext : distinctNext it used with
    | none =>
      simp [distinctTake, hnext]
    | some r =>
      obtain ⟨v, it1, used1⟩ := r
      obtain ⟨hv, rfl⟩ := distinctNext_spec it used v it1 used1 hnext
      have htail := ih it1 (used ++ [v])
      have hres : distinctTake (n + 1) it used = v :: distinctTake n it1 (used ++ [v]) := by
        simp [distinctTake, hnext]
      rw [hres]
      constructor
      · refine List.Nodup.cons ?_ htail.1
        intro hvmem
        exact htail.2 v hvmem (by simp)
      · intro w hw
        rcases List.mem_cons.mp hw with rfl | hw2
        · exact hv
        · intro hwu
          exact htail.2 w hw2 (by simp [hwu])

/-! ### Claim theorems -/

/-- Reachability of one filter state from another by further Bloom::add
calls (of arbitrary elements, i.e. arbitrary hash streams). -/
inductive AddsReach (M K : Nat) : List Nat → List Nat → Prop where
  | refl (b : List Nat) : AddsReach M K b b
  | step {b b1 b2 : List Nat} (h2 : Nat → Nat) (f2 : Nat) :
      bloomAdd h2 M K f2 b = some b1 → AddsReach M K b1 b2 → AddsReach M K b b2

lemma addsReach_bytesLe {M K : Nat} {b c : List Nat} (h : AddsReach M K b c) :
    bytesLe b c := by
  induction h with
  | refl b => exact bytesLe_refl b
  | step h2 f2 hadd _ ih =>
    rename_i b b1 b2 _
    unfold bloomAdd at hadd
    cases hidx : bloomIndices h2 M K f2 with
    | none => rw [hidx] at hadd; cases hadd
    | some L =>
      rw [hidx, Option.map_some'] at hadd
      obtain rfl : addList b L = b1 := Option.some.inj hadd
      exact bytesLe_trans (bytesLe_addList b L) ih

/-- C1: for every element (hash stream h), capacity M, hash-round
count K and prior state b of the unfolded Bloom filter, if add(e)
terminates (rejection fuel suffices) and produces b1, then has(e) on
b1 yields true, and has(e) stays true on any state b2 reachable from
b1 by further add calls: insertion only ORs bits in, and the query
re-derives the identical K rejection-sampled positions
deterministically. -/
theorem bloom_add_then_has (h : Nat → Nat) (M K fuel : Nat) (b b1 b2 : List Nat)
    (hlen : b.length = M) (hadd : bloomAdd h M K fuel b = some b1)
    (hmore : AddsReach M K b1 b2) :
    bloomHas h M K fuel b1 = some true ∧ bloomHas h M K fuel b2 = some true := by
  unfold bloomAdd at hadd
  cases hidx : bloomIndices h M K fuel with
  | none => rw [hidx] at hadd; cases hadd
  | some L =>
    rw [hidx, Option.map_some'] at hadd
    obtain rfl : addList b L = b1 := Option.some.inj hadd
    have hrange : ∀ i ∈ L, i / 8 < b.length := by
      intro i hi
      have := bloomIndices_lt hidx i hi
      rw [hlen]
      omega
    have htest := testBit_addList hrange
    have hle := addsReach_bytesLe hmore
    constructor
    · unfold bloomHas
      rw [hidx, Option.map_some']
      exact congrArg some (List.all_eq_true.mpr (fun i hi => htest i hi))
    · unfold bloomHas
      rw [hidx, Option.map_some']
      exact congrArg some
        (List.all_eq_true.mpr (fun i hi => testBit_mono hle i (htest i hi)))

/-- Witness for C1 at a concrete instance: capacity 1 byte, K = 1,
fresh filter, one further add of a different element. -/
theorem bloom_add_then_has_witness :
    bloomHas (fun _ => 0) 1 1 1 [1] = some true ∧
    bloomHas (fun _ => 0) 1 1 1 [3] = some true :=
  bloom_add_then_has (fun _ => 0) 1 1 1 [0] [1] [3] (by decide) (by decide)
    (AddsReach.step (fun _ => 1) 1 (by decide) (AddsReach.refl [3]))

/-- C2: with fold factor F = 0, for every element (hash stream h),
physical size S > 0, K and prior state: the wide index set built by
Folded::build_expected with set semantics is duplicate-free, folding
it with flip of index >> 0 returns exactly the same set, and
Folded::insert followed by Folded::has yields true — the
false-negative rate at F = 0 is zero. -/
theorem folded_insert_query_no_fold (h : Nat → Nat) (S K : Nat) (hS : 0 < S)
    (b : List Nat) (hlen : b.length = S) :
    (buildExpected h S 0 K).Nodup ∧
    sparseFolded (buildExpected h S 0 K) 0 = buildExpected h S 0 K ∧
    foldedHas h S 0 K (foldedInsert h S 0 K b) = true :=
  ⟨nodup_buildExpected h S 0 K,
   sparseFolded_zero (nodup_buildExpected h S 0 K),
   folded_insert_then_has h S 0 K hS b hlen⟩

/-- Witness for C2: one byte of storage, one hash round, fresh
filter. -/
theorem folded_insert_query_no_fold_witness :
    (buildExpected (fun _ => 0) 1 0 1).Nodup ∧
    sparseFolded (buildExpected (fun _ => 0) 1 0 1) 0 = buildExpected (fun _ => 0) 1 0 1 ∧
    foldedHas (fun _ => 0) 1 0 1 (foldedInsert (fun _ => 0) 1 0 1 [0]) = true :=
  folded_insert_query_no_fold (fun _ => 0) 1 1 (by decide) [0] (by decide)

/-- C3 (amended): if exactly two distinct wide positions p1 and p2 of
an element's wide index set fold to the same physical position q and
no other wide position of that set does, then the folded result set
excludes q and insert on a fresh filter leaves bit q unset; however
has of the same element still returns true, because the query
re-derives the identical folded set (which also excludes q) — the
code never exhibits the claimed self-inflicted false negative. -/
theorem folded_pair_cancellation (h : Nat → Nat) (S F K : Nat) (hS : 0 < S)
    (p1 p2 q : Nat)
    (hp1 : p1 ∈ buildExpected h S F K) (hp2 : p2 ∈ buildExpected h S F K)
    (hne : p1 ≠ p2) (hq1 : p1 >>> F = q) (hq2 : p2 >>> F = q)
    (honly : ∀ x ∈ buildExpected h S F K, x >>> F = q → x = p1 ∨ x = p2) :
    q ∉ foldedIndicesOf h S F K ∧
    testBitBytes (foldedInsert h S F K (List.replicate S 0)) q = false ∧
    foldedHas h S F K (foldedInsert h S F K (List.replicate S 0)) = true := by
  have hcount : (buildExpected h S F K).countP (fun i => i >>> F == q) = 2 :=
    countP_eq_two (nodup_buildExpected h S F K) hp1 hp2 hne (by simp [hq1]) (by simp [hq2])
      (fun x hx hpx => honly x hx (by simpa using hpx))
  have hnot : q ∉ foldedIndicesOf h S F K := by
    unfold foldedIndicesOf
    rw [mem_sparseFolded_iff, hcount]
    omega
  refine ⟨hnot, ?_, folded_insert_then_has h S F K hS _ (by simp)⟩
  unfold foldedInsert
  rw [testBit_addList_not_mem _ hnot, testBit_replicate_zero]

/-- Counterexample to C3 as stated: at hash stream h(s) = 2 + s with
S = 1, F = 1, K = 2 the wide set is [2, 3], whose two members both
fold to physical position 1 and nothing else does — the premises of
the claim — yet has after insert on the fresh filter evaluates to
true, where the claim asserts it returns false. -/
theorem folded_pair_cancellation_counterexample :
    2 ∈ buildExpected (fun s => 2 + s) 1 1 2 ∧
    3 ∈ buildExpected (fun s => 2 + s) 1 1 2 ∧
    (2 : Nat) ≠ 3 ∧ 2 >>> 1 = 1 ∧ 3 >>> 1 = 1 ∧
    (∀ x ∈ buildExpected (fun s => 2 + s) 1 1 2, x >>> 1 = 1 → x = 2 ∨ x = 3) ∧
    foldedHas (fun s => 2 + s) 1 1 2
      (foldedInsert (fun s => 2 + s) 1 1 2 (List.replicate 1 0)) = true := by
  decide

/-- Witness for the amended C3 at the same concrete instance. -/
theorem folded_pair_cancellation_witness :
    1 ∉ foldedIndicesOf (fun s => 2 + s) 1 1 2 ∧
    testBitBytes (foldedInsert (fun s => 2 + s) 1 1 2 (List.replicate 1 0)) 1 = false ∧
    foldedHas (fun s => 2 + s) 1 1 2
      (foldedInsert (fun s => 2 + s) 1 1 2 (List.replicate 1 0)) = true :=
  folded_pair_cancellation (fun s => 2 + s) 1 1 2 (by decide) 2 3 1 (by decide)
    (by decide) (by decide) (by decide) (by decide) (by decide)

/-- C4: whenever Bloom::saturate terminates (returning the committed
state), the committed population count never exceeds 1019 unless the
filter already exceeded it on entry (in which case the state is
returned unchanged), and the population count never decreases:
candidates are trial-applied to a clone and adopted only while the
clone's count_ones stays at most 1019. -/
theorem saturate_count_invariant (cands : Nat → Nat → Nat) (M K g : Nat) :
    ∀ (fuel i : Nat) (b bout : List Nat),
      bloomSaturate cands M K g fuel i b = some bout →
      countOnesBytes b ≤ countOnesBytes bout ∧
        (countOnesBytes bout ≤ 1019 ∨ bout = b) := by
  intro fuel
  induction fuel with
  | zero => intro i b bout hx; cases hx
  | succ fuel ih =>
    intro i b bout hx
    cases hadd : bloomAdd (cands i) M K g b with
    | none =>
      simp only [bloomSaturate, hadd] at hx
      exact Option.noConfusion hx
    | some cloned =>
      simp only [bloomSaturate, hadd] at hx
      have hmono : countOnesBytes b ≤ countOnesBytes cloned := by
        unfold bloomAdd at hadd
        cases hidx : bloomIndices (cands i) M K g with
        | none => rw [hidx] at hadd; cases hadd
        | some L =>
          rw [hidx, Option.map_some'] at hadd
          obtain rfl : addList b L = cloned := Option.some.inj hadd
          exact countOnes_mono (bytesLe_addList b L)
      split at hx
      case isTrue hgt =>
        obtain rfl : b = bout := Option.some.inj hx
        exact ⟨le_rfl, Or.inr rfl⟩
      case isFalse hle =>
        obtain ⟨ih1, ih2⟩ := ih (i + 1) cloned bout hx
        refine ⟨le_trans hmono ih1, ?_⟩
        rcases ih2 with h1019 | rfl
        · exact Or.inl h1019
        · exact Or.inl (by omega)

set_option maxRecDepth 100000 in
/-- Witness for C4: a 128-byte filter already holding 1020 set bits;
the first candidate pushes the clone over the ceiling, so saturate
returns the entry state unchanged. -/
theorem saturate_count_invariant_witness :
    countOnesBytes (List.replicate 127 255 ++ [15])
      ≤ countOnesBytes (List.replicate 127 255 ++ [15]) ∧
    (countOnesBytes (List.replicate 127 255 ++ [15]) ≤ 1019 ∨
      (List.replicate 127 255 ++ [15] : List Nat) = List.replicate 127 255 ++ [15]) :=
  saturate_count_invariant (fun _ _ => 0) 128 1 1 1 0
    (List.replicate 127 255 ++ [15]) (List.replicate 127 255 ++ [15]) (by decide)

set_option maxRecDepth 100000 in
/-- C5 counterexample: the biased-modulo generator (position =
xxh3 draw mod 1000, as BloomIndicesXXH3 computes) does not reproduce
the 250-character hex fixture of the test_vectors test. -/
theorem test_vectors_modulo_counterexample :
    hexEncode testVectorsBufferModulo ≠ testVectorsFixture := by
  decide

set_option maxRecDepth 100000 in
/-- C5 (amended): inserting "one" and then "three" into a fresh
125-byte, K = 4 filter with the rejection-sampling generator that
Bloom::add actually uses (mask 1023 over 64-bit seeded XXH3 draws,
rejecting masked draws >= 1000) produces exactly the 250-character
hex fixture of the test_vectors test, character for character. -/
theorem test_vectors_fixture_eq :
    hexEncode testVectorsBuffer = testVectorsFixture := by
  decide

/-- C6: the rejection-sampling generator masks each draw with P - 1
where P is a power of two, P is at least M * 8, and P is the smallest
such power of two (so P = M * 8 exactly when M * 8 is a power of two);
a successful next() yields the first masked draw over successive seeds
that is below M * 8 — every seed strictly between the start and the
accepted seed was rejected because its masked draw was >= M * 8 — and
hence every yielded position is < M * 8. -/
theorem rejection_sampling_spec (h : Nat → Nat) (M : Nat)
    (fuel seed i seed1 : Nat) (hnext : rsNext h M fuel seed = some (i, seed1)) :
    (∃ k, rsBitmask M + 1 = 2 ^ k) ∧
    M * 8 ≤ rsBitmask M + 1 ∧
    (∀ k, M * 8 ≤ 2 ^ k → rsBitmask M + 1 ≤ 2 ^ k) ∧
    i = h (seed1 - 1) &&& rsBitmask M ∧ i < M * 8 ∧
    (∀ t, seed ≤ t → t < seed1 - 1 → M * 8 ≤ h t &&& rsBitmask M) := by
  obtain ⟨h1, h2, h3, h4⟩ := rsNext_spec h M fuel seed i seed1 hnext
  have hmask : rsBitmask M + 1 = nextPowerOfTwo (M * 8) := by
    rw [rsBitmask_eq]
    have := one_le_nextPowerOfTwo (M * 8)
    omega
  refine ⟨⟨bitLen (M * 8 - 1), by rw [hmask]; rfl⟩, ?_, ?_, h3, h1, h4⟩
  · rw [hmask]
    exact le_nextPowerOfTwo (M * 8)
  · intro k hk
    rw [hmask]
    exact nextPowerOfTwo_le_pow hk

/-- Witness for C6 at M = 1 with a constant-zero hash stream. -/
theorem rejection_sampling_spec_witness :
    (∃ k, rsBitmask 1 + 1 = 2 ^ k) ∧
    1 * 8 ≤ rsBitmask 1 + 1 ∧
    (∀ k, 1 * 8 ≤ 2 ^ k → rsBitmask 1 + 1 ≤ 2 ^ k) ∧
    0 = (fun _ => 0) (1 - 1) &&& rsBitmask 1 ∧ 0 < 1 * 8 ∧
    (∀ t, 0 ≤ t → t < 1 - 1 → 1 * 8 ≤ (fun _ => 0) t &&& rsBitmask 1) :=
  rejection_sampling_spec (fun _ => 0) 1 1 0 0 1 (by decide)

/-- C7: YieldBits::next with word width 64 and group width b
(0 < b < 64) follows the discard-on-insufficient-remainder policy: if
bits_used + b exceeds 64 it fetches a fresh word and resets bits_used
(discarding the rest of the old word, never carrying bits across
words); otherwise it reuses the cached word (fetching only on the very
first call); the output is bits [bits_used, bits_used + b) of the
current word, little end first — arithmetically word / 2^bits_used
mod 2^b — and bits_used then grows by b. -/
theorem yield_bits_policy (b : Nat) (hb0 : 0 < b) (hb : b < 64) (s : YieldBitsState) :
    (s.bitsUsed + b > 64 →
      (s.rest = [] → yieldBitsNext b s = none) ∧
      (∀ w r, s.rest = w :: r →
        yieldBitsNext b s = some (w / 2 ^ 0 % 2 ^ b, ⟨r, some w, 0 + b⟩))) ∧
    (s.bitsUsed + b ≤ 64 → ∀ l, s.lastWord = some l →
      yieldBitsNext b s = some (l / 2 ^ s.bitsUsed % 2 ^ b, ⟨s.rest, some l, s.bitsUsed + b⟩)) ∧
    (s.bitsUsed + b ≤ 64 → s.lastWord = none →
      (s.rest = [] → yieldBitsNext b s = none) ∧
      (∀ w r, s.rest = w :: r →
        yieldBitsNext b s = some (w / 2 ^ s.bitsUsed % 2 ^ b, ⟨r, some w, s.bitsUsed + b⟩))) := by
  obtain ⟨rest, lastW, bu⟩ := s
  dsimp only
  have hconv : ∀ x u : Nat, (x >>> u) &&& ((1 <<< b) - 1) = x / 2 ^ u % 2 ^ b := by
    intro x u
    rw [Nat.shiftRight_eq_div_pow, Nat.one_shiftLeft, Nat.and_pow_two_sub_one_eq_mod]
  refine ⟨?_, ?_, ?_⟩
  · intro hover
    constructor
    · intro hrest
      subst hrest
      simp only [yieldBitsNext, if_pos hover]
    · intro w r hrest
      subst hrest
      simp only [yieldBitsNext, if_pos hover]
      rw [hconv]
  · intro hunder l hlast
    subst hlast
    simp only [yieldBitsNext, if_neg (by omega : ¬ bu + b > 64)]
    rw [hconv]
  · intro hunder hlast
    subst hlast
    constructor
    · intro hrest
      subst hrest
      simp only [yieldBitsNext, if_neg (by omega : ¬ bu + b > 64)]
    · intro w r hrest
      subst hrest
      simp only [yieldBitsNext, if_neg (by omega : ¬ bu + b > 64)]
      rw [hconv]

/-- Witness for C7: extracting the low byte of the word 0xabcd on a
fresh extractor. -/
theorem yield_bits_policy_witness :
    yieldBitsNext 8 ⟨[43981], none, 0⟩
      = some (43981 / 2 ^ 0 % 2 ^ 8, ⟨[], some 43981, 0 + 8⟩) :=
  ((yield_bits_policy 8 (by decide) (by decide) ⟨[43981], none, 0⟩).2.2
    (by decide) rfl).2 43981 [] rfl

/-- C8: for every underlying iterator (list of candidate outputs) and
every requested count n, the values yielded by the DistinctSampling
wrapper are pairwise distinct: a candidate equal to a previously
yielded value is rejected and redrawn, so no repeated position appears
within one element's K-sequence. -/
theorem distinct_sampling_nodup (n : Nat) (it : List Nat) :
    (distinctTake n it []).Nodup :=
  (distinctTake_nodup n it []).1

/-- C9: every bit index Bloom::add / Bloom::has passes to set_bit /
test_bit is below M * 8 (so its byte index is inside the M-byte
buffer), and every bit index Folded::insert / Folded::has passes to
set_bit / test_bit is below S * 8 (each wide index is reduced modulo
S * 8 << F and then shifted right by F), so the array accesses cannot
fail and insertion always succeeds with no filter-full error. -/
theorem index_in_range (h g : Nat → Nat) (M K fuel S F K2 : Nat) (L : List Nat)
    (hL : bloomIndices h M K fuel = some L) (hS : 0 < S) :
    (∀ i ∈ L, i < M * 8 ∧ i / 8 < M) ∧
    (∀ i ∈ foldedIndicesOf g S F K2, i < S * 8 ∧ i / 8 < S) := by
  constructor
  · intro i hi
    have h1 := bloomIndices_lt hL i hi
    exact ⟨h1, by omega⟩
  · intro i hi
    have h1 := foldedIndicesOf_lt hS i hi
    exact ⟨h1, by omega⟩

/-- Witness for C9 at a one-byte filter with one hash round. -/
theorem index_in_range_witness :
    (∀ i ∈ [0], i < 1 * 8 ∧ i / 8 < 1) ∧
    (∀ i ∈ foldedIndicesOf (fun _ => 0) 1 0 1, i < 1 * 8 ∧ i / 8 < 1) :=
  index_in_range (fun _ => 0) (fun _ => 0) 1 1 1 1 0 1 [0] (by decide) (by decide)

/-- C10: BloomIndicesDistinctXXH3 keeps used_nums of length M while
its underlying generator draws positions in [0, M * 8); whenever the
current candidate position is at least M (always possible since
positions range up to M * 8 - 1), the read used_nums[index] in next()
is out of bounds, i.e. the call panics instead of yielding. -/
theorem distinct_generator_out_of_bounds (h : Nat → Nat) (M fuel seed : Nat)
    (usedNums : List Bool) (hlen : usedNums.length = M) (hM : 0 < M)
    (hfuel : 0 < fuel) (hp : M ≤ h seed % (M * 8)) :
    h seed % (M * 8) < M * 8 ∧
    bloomIndicesDistinctNext h M fuel usedNums seed = DistinctIterStep.outOfBounds := by
  refine ⟨Nat.mod_lt _ (by omega), ?_⟩
  cases fuel with
  | zero => omega
  | succ fuel =>
    simp only [bloomIndicesDistinctNext]
    rw [dif_neg (by omega : ¬ h seed % (M * 8) < usedNums.length)]

/-- Witness for C10: M = 1, the draw 9 lands at position 1 >= M. -/
theorem distinct_generator_out_of_bounds_witness :
    (fun _ => 9) 0 % (1 * 8) < 1 * 8 ∧
    bloomIndicesDistinctNext (fun _ => 9) 1 1 [false] 0
      = DistinctIterStep.outOfBounds :=
  distinct_generator_out_of_bounds (fun _ => 9) 1 1 0 [false] (by decide) (by decide)
    (by decide) (by decide)
